import Mathlib

/-!
Verification development for the `ntc-crawler` repository
(`src/ntc_crawler/spiders/sitemap.py`, class `SitemapSpider`).

The spider's own code (`should_follow`, `parse`, `closed`, `build_tree`,
the `custom_settings` constants and the two in-memory mappings
`sitemap_data` / `parent_map`) is embedded shallowly below.  Python dicts
are modelled as insertion-ordered association lists with the exact
update semantics of CPython dicts (assignment to an existing key keeps
its position, a new key is appended at the end); `defaultdict(list)`
append is modelled accordingly.  The recursive `build_tree` is embedded
with an explicit fuel parameter: a `none` result means the recursion ran
out of fuel at every depth, i.e. the Python function does not terminate.

The crawl scheduling itself (request queue, deduplication, the
`DEPTH_LIMIT` and `CLOSESPIDER_PAGECOUNT` enforcement) is performed by
the scrapy framework, whose code is not part of this repository; it is
modelled from the specification (§4.1 Frontier/Scheduler, §5) as a
small-step transition system `Step` / `Reachable`, with the embedded
`parse` as the callback.  The model dispatches queued items in an
arbitrary order (so it is agnostic between FIFO and LIFO scheduling),
lets the environment choose each response's status, content type, title
and extracted hrefs, and fixes `response.url` to the requested URL
(redirects are out of scope).  `urljoin` is an arbitrary
environment-supplied function, constrained only by the fact (true of
`urllib.parse.urljoin` against a non-empty base URL) that it never
returns the empty string.
-/

namespace NtcCrawler

/-! ### Association lists with Python-dict semantics -/

/-- Lookup in an insertion-ordered association list (Python `d[k]` / `d.get(k)`). -/
def alookup {β : Type} : List (String × β) → String → Option β
  | [], _ => none
  | e :: rest, k => if e.1 = k then some e.2 else alookup rest k

/-- The keys of an association list, in insertion order (Python `list(d)`). -/
def akeys {β : Type} (d : List (String × β)) : List String := d.map Prod.fst

/-- Python dict assignment `d[k] = v`: replaces the value in place if the key
exists, otherwise appends the new key at the end. -/
def ainsert {β : Type} : List (String × β) → String → β → List (String × β)
  | [], k, v => [(k, v)]
  | e :: rest, k, v => if e.1 = k then (k, v) :: rest else e :: ainsert rest k v

/-- Position of an element in a list (first occurrence; `l.length` if absent). -/
def lidx {α : Type} [DecidableEq α] : List α → α → Nat
  | [], _ => 0
  | a :: l, u => if a = u then 0 else lidx l u + 1

/-! ### Data model: one record per fetched page -/

/-- The per-page record built by `parse` (the dict stored into
`self.sitemap_data[current_url]`). -/
structure Node where
  url : String
  title : String
  status : Nat
  depth : Nat
  parent : Option String
  child_urls : List String
deriving DecidableEq, Repr

/-- The spider's in-memory crawl graph store: `self.sitemap_data` (URL to node)
and `self.parent_map` (`defaultdict(list)`, parent URL to child URLs). -/
structure Store where
  sitemap_data : List (String × Node)
  parent_map : List (String × List String)
deriving DecidableEq, Repr

/-- `self.parent_map.get(url, [])`. -/
def pmGet (s : Store) (u : String) : List String := (alookup s.parent_map u).getD []

/-- `self.parent_map[p].append(c)` on a `defaultdict(list)`. -/
def pmappend (pm : List (String × List String)) (p c : String) :
    List (String × List String) :=
  ainsert pm p ((alookup pm p).getD [] ++ [c])

/-- The recorded parent-to-child edge relation of the store. -/
def Edge (s : Store) (p c : String) : Prop := c ∈ pmGet s p

instance (s : Store) (p c : String) : Decidable (Edge s p c) := by
  unfold Edge; infer_instance

/-! ### The spider's configuration (`custom_settings`, class attributes) -/

def spider_name : String := "sitemap"

def allowed_domains : List String := ["ntc.net.np"]

def start_urls : List String := ["https://www.ntc.net.np"]

/-- The single seed URL, `start_urls[0]`. -/
def seedUrl : String := "https://www.ntc.net.np"

def DOWNLOAD_DELAY : Nat := 1

def DEPTH_LIMIT : Nat := 3

def CLOSESPIDER_PAGECOUNT : Nat := 200

def ROBOTSTXT_OBEY : Bool := false

/-! ### `should_follow` and link extraction inside `parse` -/

/-- The `skip_extensions` list local to `should_follow`. -/
def skip_extensions : List String :=
  [".pdf", ".mp4", ".mp3", ".zip", ".doc", ".docx",
   ".xls", ".xlsx", ".ppt", ".pptx", ".jpg", ".png",
   ".gif", ".jpeg", ".avi", ".mov", ".wmv"]

/-- Python `s.lower()`, character by character. -/
def strLower (s : String) : String := ⟨s.data.map Char.toLower⟩

/-- Python `s.endswith(e)`. -/
def strEndsWith (s e : String) : Bool := e.data.isSuffixOf s.data

/-- Python `s.startswith(e)`. -/
def strStartsWith (s e : String) : Bool := e.data.isPrefixOf s.data

/-- Python `s.strip()`: drop leading and trailing whitespace. -/
def strTrim (s : String) : String :=
  ⟨((s.data.dropWhile Char.isWhitespace).reverse.dropWhile Char.isWhitespace).reverse⟩

/-- `should_follow`: follow a URL unless it ends (case-insensitively) in one of
the excluded resource extensions. -/
def should_follow (url : String) : Bool :=
  !(skip_extensions.any (fun ext => strEndsWith (strLower url) ext))

/-- The schemes / fragment markers skipped by the href loop in `parse`. -/
def skip_starts : List String := ["mailto:", "tel:", "javascript:", "#"]

/-- Does `pat` occur as a contiguous sublist? -/
def infixOfL (pat : List Char) : List Char → Bool
  | [] => pat.isEmpty
  | c :: rest => pat.isPrefixOf (c :: rest) || infixOfL pat rest

/-- Substring containment, Python's `pat in s`. -/
def strContains (s pat : String) : Bool := infixOfL pat.data s.data

/-- What the spider sees of one HTTP response: the external Fetcher and Link
Extractor collaborators.  `hrefs` models `response.css("a::attr(href)").getall()`,
`urljoin` models `response.urljoin`. -/
structure Response where
  url : String
  status : Nat
  contentType : String
  title : String
  hrefs : List String
  urljoin : String → String

/-- A follow request yielded by `parse` (`response.follow(link, meta=...)`). -/
structure Request where
  url : String
  parent_url : String
deriving DecidableEq, Repr

/-- The `child_urls` list built by the href loop in `parse`: keep non-empty
hrefs that do not start with an excluded scheme or `#`, resolved through
`response.urljoin`. -/
def extract_child_urls (resp : Response) : List String :=
  (resp.hrefs.filter
    (fun href => !(href == "") && !(skip_starts.any (fun s0 => strStartsWith href s0)))).map
    resp.urljoin

/-- The node dict created by `parse`. -/
def parse_node (resp : Response) (par : Option String) (d : Nat) : Node :=
  { url := resp.url, title := strTrim resp.title, status := resp.status,
    depth := d, parent := par, child_urls := extract_child_urls resp }

/-- The follow requests yielded by `parse`: discovered links filtered by
`should_follow`, each carrying the current URL as `parent_url`. -/
def parse_requests (resp : Response) : List Request :=
  ((extract_child_urls resp).filter should_follow).map
    (fun l => { url := l, parent_url := resp.url })

/-- The `parse` callback.  Non-HTML responses return immediately (nothing is
stored, nothing is followed).  Otherwise the node is stored under
`response.url` (overwriting any existing entry, CPython dict semantics), the
parent-to-child edge is recorded when the meta parent is truthy and already a
key of the (just updated) `sitemap_data`, and the filtered links are yielded. -/
def parse (s : Store) (resp : Response) (parent_url : Option String) (depth : Nat) :
    Store × List Request :=
  if strContains (strLower resp.contentType) "text/html" = true then
    let sd1 := ainsert s.sitemap_data resp.url (parse_node resp parent_url depth)
    ({ sitemap_data := sd1,
       parent_map :=
         match parent_url with
         | some p =>
             if p ≠ "" ∧ (alookup sd1 p).isSome = true then
               pmappend s.parent_map p resp.url
             else s.parent_map
         | none => s.parent_map },
     parse_requests resp)
  else (s, [])

/-! ### `build_tree` -/

/-- A node of the output tree: the copied record fields with `children`
replacing `child_urls`. -/
inductive TreeNode : Type where
  | node : String → String → Nat → Nat → Option String → List TreeNode → TreeNode

/-- The child loop of `build_tree`: recurse into each recorded child with the
given tree builder, appending the non-`None` results; the store is threaded
through the calls as the Python heap. -/
def build_kids (bt : Store → String → Option (Option TreeNode × Store)) :
    Store → List String → Option (List TreeNode × Store)
  | s, [] => some ([], s)
  | s, c :: rest =>
    match bt s c with
    | none => none
    | some (copt, s1) =>
      match build_kids bt s1 rest with
      | none => none
      | some (ts, s2) =>
        some ((match copt with | none => ts | some t => t :: ts), s2)

/-- `build_tree(url)`, with explicit fuel.  A `none` result means every fuel
bound is exhausted, i.e. the unguarded Python recursion does not return.
`some (none, s)` is Python's `None` (URL not stored); `some (some t, s)` is a
built tree.  The returned store component is the heap after the call: the
Python body works on `self.sitemap_data[url].copy()` and never assigns into
the store, which the threading makes explicit. -/
def build_tree : Nat → Store → String → Option (Option TreeNode × Store)
  | 0, _, _ => none
  | Nat.succ f, s, url =>
    match alookup s.sitemap_data url with
    | none => some (none, s)
    | some nd =>
      match build_kids (build_tree f) s (pmGet s url) with
      | none => none
      | some (cs, s1) =>
        some (some (TreeNode.node nd.url nd.title nd.status nd.depth nd.parent cs), s1)

mutual

/-- URLs of a tree, root first, children in order (pre-order). -/
def treeUrls : TreeNode → List String
  | TreeNode.node u _ _ _ _ cs => u :: treeUrlsList cs

/-- URLs of a forest, in order. -/
def treeUrlsList : List TreeNode → List String
  | [] => []
  | t :: ts => treeUrls t ++ treeUrlsList ts

end

/-- URLs of an optional tree (Python `None` has no URLs). -/
def urlsOf : Option TreeNode → List String
  | none => []
  | some t => treeUrls t

/-- Observation helper: the pre-order URL list produced by `build_tree`, when
it terminates within the given fuel. -/
def treeUrlsOf (fuel : Nat) (s : Store) (u : String) : Option (List String) :=
  (build_tree fuel s u).map (fun r => urlsOf r.1)

/-- `build_tree` loops forever from `u` on store `s`: every fuel bound is
exhausted. -/
def divergesAt (s : Store) (u : String) : Prop :=
  ∀ fuel, build_tree fuel s u = none

/-- The `closed` callback's two serialized outputs: the tree from
`build_tree(start_urls[0])` and, computed afterwards, the flat list
`list(self.sitemap_data.values())`. -/
def closed (fuel : Nat) (s : Store) : Option (Option TreeNode × List Node) :=
  match build_tree fuel s (start_urls.headD "") with
  | none => none
  | some (tr, s1) => some (tr, s1.sitemap_data.map Prod.snd)

/-! ### Lemmas about the association-list operations -/

theorem akeys_append {β : Type} (d e : List (String × β)) :
    akeys (d ++ e) = akeys d ++ akeys e := by
  simp [akeys]

theorem mem_akeys_cons {β : Type} (a : String × β) (rest : List (String × β)) (k : String) :
    k ∈ akeys (a :: rest) ↔ k = a.1 ∨ k ∈ akeys rest := by
  simp [akeys]

theorem not_mem_akeys_cons {β : Type} {a : String × β} {rest : List (String × β)} {k : String}
    (h : k ∉ akeys (a :: rest)) : k ≠ a.1 ∧ k ∉ akeys rest := by
  rw [mem_akeys_cons] at h
  push_neg at h
  exact h

theorem alookup_isSome_iff {β : Type} (d : List (String × β)) (k : String) :
    (alookup d k).isSome = true ↔ k ∈ akeys d := by
  induction d with
  | nil => simp [alookup, akeys]
  | cons e rest ih =>
    rw [mem_akeys_cons]
    by_cases h : e.1 = k
    · simp [alookup, h]
    · have h2 : ¬ k = e.1 := fun hk => h hk.symm
      simp [alookup, h, h2, ih]

theorem alookup_eq_none_iff {β : Type} (d : List (String × β)) (k : String) :
    alookup d k = none ↔ k ∉ akeys d := by
  rw [← alookup_isSome_iff]
  cases alookup d k <;> simp

theorem alookup_mem {β : Type} {d : List (String × β)} {k : String} {v : β}
    (h : alookup d k = some v) : (k, v) ∈ d := by
  induction d with
  | nil => simp [alookup] at h
  | cons e rest ih =>
    obtain ⟨e1, e2⟩ := e
    by_cases he : e1 = k
    · simp [alookup, he] at h
      subst he
      subst h
      exact List.mem_cons_self _ _
    · simp [alookup, he] at h
      exact List.mem_cons_of_mem _ (ih h)

theorem alookup_append_left {β : Type} {d : List (String × β)} {k : String} {v : β}
    (e : List (String × β)) (h : alookup d k = some v) :
    alookup (d ++ e) k = some v := by
  induction d with
  | nil => simp [alookup] at h
  | cons a rest ih =>
    by_cases ha : a.1 = k
    · simp [alookup, ha] at h ⊢; exact h
    · simp [alookup, ha] at h ⊢; exact ih h

theorem alookup_append_right {β : Type} {d : List (String × β)} {k : String}
    (e : List (String × β)) (h : k ∉ akeys d) :
    alookup (d ++ e) k = alookup e k := by
  induction d with
  | nil => simp
  | cons a rest ih =>
    obtain ⟨h1, h2⟩ := not_mem_akeys_cons h
    have ha : ¬ a.1 = k := fun hk => h1 hk.symm
    simp [alookup, ha, ih h2]

theorem ainsert_of_not_mem {β : Type} {d : List (String × β)} {k : String}
    (v : β) (h : k ∉ akeys d) : ainsert d k v = d ++ [(k, v)] := by
  induction d with
  | nil => simp [ainsert]
  | cons a rest ih =>
    obtain ⟨h1, h2⟩ := not_mem_akeys_cons h
    have ha : ¬ a.1 = k := fun hk => h1 hk.symm
    simp [ainsert, ha, ih h2]

theorem akeys_ainsert_mem {β : Type} {d : List (String × β)} {k : String}
    (v : β) (h : k ∈ akeys d) : akeys (ainsert d k v) = akeys d := by
  induction d with
  | nil => simp [akeys] at h
  | cons a rest ih =>
    by_cases ha : a.1 = k
    · simp [ainsert, ha, akeys]
    · rw [mem_akeys_cons] at h
      rcases h with h | h
      · exact absurd h.symm ha
      · have h3 := ih h
        simp only [ainsert]
        rw [if_neg ha]
        simp only [akeys, List.map_cons] at h3 ⊢
        rw [h3]

theorem alookup_ainsert_self {β : Type} (d : List (String × β)) (k : String) (v : β) :
    alookup (ainsert d k v) k = some v := by
  induction d with
  | nil => simp [ainsert, alookup]
  | cons a rest ih =>
    by_cases ha : a.1 = k
    · simp [ainsert, ha, alookup]
    · simp [ainsert, ha, alookup, ih]

theorem alookup_ainsert_ne {β : Type} (d : List (String × β)) {k q : String} (v : β)
    (h : q ≠ k) : alookup (ainsert d k v) q = alookup d q := by
  induction d with
  | nil => simp [ainsert, alookup, Ne.symm h]
  | cons a rest ih =>
    by_cases ha : a.1 = k
    · simp [ainsert, ha, alookup, Ne.symm h, ha ▸ Ne.symm h]
    · simp [ainsert, ha, alookup, ih]

theorem alookup_split {β : Type} {d : List (String × β)} {k : String} {v : β}
    (h : alookup d k = some v) :
    ∃ l1 l2, d = l1 ++ (k, v) :: l2 ∧ k ∉ akeys l1 := by
  induction d with
  | nil => simp [alookup] at h
  | cons a rest ih =>
    obtain ⟨a1, a2⟩ := a
    by_cases ha : a1 = k
    · simp [alookup, ha] at h
      subst ha
      subst h
      exact ⟨[], rest, rfl, by simp [akeys]⟩
    · simp [alookup, ha] at h
      obtain ⟨l1, l2, hd, hk⟩ := ih h
      refine ⟨(a1, a2) :: l1, l2, by simp [hd], ?_⟩
      intro hmem
      rcases (mem_akeys_cons _ _ _).mp hmem with hc | hc
      · exact ha hc.symm
      · exact hk hc

theorem ainsert_split {β : Type} {l1 l2 : List (String × β)} {k : String} (w v : β)
    (h : k ∉ akeys l1) :
    ainsert (l1 ++ (k, w) :: l2) k v = l1 ++ (k, v) :: l2 := by
  induction l1 with
  | nil => simp [ainsert]
  | cons a rest ih =>
    obtain ⟨h1, h2⟩ := not_mem_akeys_cons h
    have ha : ¬ a.1 = k := fun hk => h1 hk.symm
    simp [ainsert, ha, ih h2]

/-! ### Lemmas about `lidx` -/

theorem lidx_lt_length {α : Type} [DecidableEq α] {l : List α} {u : α}
    (h : u ∈ l) : lidx l u < l.length := by
  induction l with
  | nil => simp at h
  | cons a rest ih =>
    by_cases ha : a = u
    · simp [lidx, ha]
    · simp [ha, Ne.symm ha] at h
      simp [lidx, ha]
      exact ih h

theorem lidx_append_left {α : Type} [DecidableEq α] {l : List α} {u : α}
    (e : List α) (h : u ∈ l) : lidx (l ++ e) u = lidx l u := by
  induction l with
  | nil => simp at h
  | cons a rest ih =>
    by_cases ha : a = u
    · simp [lidx, ha]
    · simp [ha, Ne.symm ha] at h
      simp [lidx, ha, ih h]

theorem lidx_append_right {α : Type} [DecidableEq α] {l : List α} {u : α}
    (e : List α) (h : u ∉ l) : lidx (l ++ e) u = l.length + lidx e u := by
  induction l with
  | nil => simp
  | cons a rest ih =>
    simp at h
    simp [lidx, Ne.symm h.1, ih h.2]
    omega

/-! ### The crawl model

Modelled from the spec: the Frontier/Scheduler of §4.1 and §5 (implemented by
the scrapy framework, not by code in this repository), driving the embedded
`parse` callback.  A state holds the spider's store, the queue of pending
`(url, parent, depth)` work items, the visited-or-in-flight set `seen`, and the
count of dispatched pages.  `enqueue` silently drops an item whose URL was
already seen, whose depth exceeds `DEPTH_LIMIT`, or once `CLOSESPIDER_PAGECOUNT`
pages were dispatched.  A `Step` dispatches one pending item (at an arbitrary
queue position, so the model is agnostic between FIFO and LIFO scheduling),
receives an environment-chosen response for exactly that URL, runs `parse`,
and enqueues the yielded follow requests at depth one greater. -/

/-- A pending work item of the frontier: URL, meta parent URL, meta depth. -/
structure QItem where
  url : String
  parent : Option String
  depth : Nat
deriving DecidableEq, Repr

/-- The crawl state: spider store plus the spec-modelled frontier state. -/
structure CrawlState where
  store : Store
  queue : List QItem
  seen : List String
  dispatched : Nat

/-- Modelled from the spec: `enqueue(url, parentUrl, depth)` — rejected
silently when the URL is already in the visited-or-in-flight set, the depth
exceeds the configured depth limit, or the dispatched count has reached the
configured page-count limit. -/
def enqueue (st : CrawlState) (url : String) (parent_url : String) (depth : Nat) :
    CrawlState :=
  if url ∈ st.seen ∨ DEPTH_LIMIT < depth ∨ CLOSESPIDER_PAGECOUNT ≤ st.dispatched then st
  else { st with seen := st.seen ++ [url],
                 queue := st.queue ++ [⟨url, some parent_url, depth⟩] }

/-- The state after dispatching one queue item to `parse` and enqueueing the
yielded follow requests with depth one greater (the depth bookkeeping of
scrapy's depth middleware, per the spec's `recordResult`). -/
def stepResult (st : CrawlState) (pre post : List QItem) (resp : Response)
    (par : Option String) (d : Nat) : CrawlState :=
  let pr := parse st.store resp par d
  let st1 : CrawlState :=
    { store := pr.1, queue := pre ++ post, seen := st.seen,
      dispatched := st.dispatched + 1 }
  pr.2.foldl (fun acc r => enqueue acc r.url r.parent_url (d + 1)) st1

/-- One crawl step: some pending item is dispatched (no dispatch happens once
the page-count limit is reached), the environment supplies the response for
exactly the requested URL, with an `urljoin` that never returns the empty
string (true of `urllib.parse.urljoin` against a non-empty base URL). -/
inductive Step : CrawlState → CrawlState → Prop where
  | fetch (st : CrawlState) (url : String) (par : Option String) (d : Nat)
      (pre post : List QItem) (resp : Response)
      (hq : st.queue = pre ++ ⟨url, par, d⟩ :: post)
      (hlim : st.dispatched < CLOSESPIDER_PAGECOUNT)
      (hurl : resp.url = url)
      (hjoin : ∀ h, resp.urljoin h ≠ "") :
      Step st (stepResult st pre post resp par d)

/-- The initial crawl state: empty store, the seed as the only pending item,
already marked visited-or-in-flight. -/
def initState : CrawlState :=
  { store := { sitemap_data := [], parent_map := [] },
    queue := [⟨seedUrl, none, 0⟩],
    seen := [seedUrl],
    dispatched := 0 }

/-- States reachable by the crawl from the initial state. -/
inductive Reachable : CrawlState → Prop where
  | init : Reachable initState
  | step {s1 s2 : CrawlState} : Reachable s1 → Step s1 s2 → Reachable s2

/-! ### Invariants of reachable states -/

/-- Store-level invariants that every crawl-produced store satisfies.  The
`pm_lt` field is the crucial acyclicity property: every recorded edge goes
from an earlier-stored key to a strictly later-stored key. -/
structure StoreInv (s : Store) : Prop where
  keys_nodup : (akeys s.sitemap_data).Nodup
  entry_url : ∀ e ∈ s.sitemap_data, e.2.url = e.1
  entry_depth_le : ∀ e ∈ s.sitemap_data, e.2.depth ≤ DEPTH_LIMIT
  entry_follow : ∀ e ∈ s.sitemap_data, should_follow e.1 = true
  seed_parent : ∀ e ∈ s.sitemap_data, (e.2.parent = none ↔ e.1 = seedUrl)
  seed_depth : ∀ e ∈ s.sitemap_data, e.1 = seedUrl → e.2.depth = 0
  parent_rel : ∀ e ∈ s.sitemap_data, ∀ p, e.2.parent = some p →
    ∃ m, alookup s.sitemap_data p = some m ∧ e.2.depth = m.depth + 1 ∧ Edge s p e.1
  keys_head : s.sitemap_data = [] ∨ (akeys s.sitemap_data).head? = some seedUrl
  pm_keys_nodup : (s.parent_map.map Prod.fst).Nodup
  pm_entry_key : ∀ e ∈ s.parent_map, e.1 ∈ akeys s.sitemap_data
  pm_child_key : ∀ e ∈ s.parent_map, ∀ c ∈ e.2, c ∈ akeys s.sitemap_data
  pm_lt : ∀ e ∈ s.parent_map, ∀ c ∈ e.2,
    lidx (akeys s.sitemap_data) e.1 < lidx (akeys s.sitemap_data) c
  pm_once : ((s.parent_map.map Prod.snd).flatten).Nodup

/-- Full invariant of reachable crawl states. -/
structure Inv (st : CrawlState) : Prop where
  store_inv : StoreInv st.store
  count_le : st.store.sitemap_data.length ≤ st.dispatched
  disp_le : st.dispatched ≤ CLOSESPIDER_PAGECOUNT
  qk_nodup : (st.queue.map QItem.url ++ akeys st.store.sitemap_data).Nodup
  sub_seen : ∀ u ∈ st.queue.map QItem.url ++ akeys st.store.sitemap_data, u ∈ st.seen
  seed_seen : seedUrl ∈ st.seen
  q_follow : ∀ it ∈ st.queue, should_follow it.url = true
  q_ne : ∀ it ∈ st.queue, it.url ≠ ""
  q_depth : ∀ it ∈ st.queue, it.depth ≤ DEPTH_LIMIT
  q_none : ∀ it ∈ st.queue, it.parent = none → it.url = seedUrl ∧ it.depth = 0
  q_seed : ∀ it ∈ st.queue, it.url = seedUrl → it.parent = none
  q_par : ∀ it ∈ st.queue, ∀ p, it.parent = some p →
    p ≠ "" ∧ ∃ m, alookup st.store.sitemap_data p = some m ∧ it.depth = m.depth + 1
  empty_q : st.store.sitemap_data = [] → st.queue = [] ∨ st.queue = [⟨seedUrl, none, 0⟩]

/-! ### Helper lemmas for the preservation proofs -/

theorem head_append_of_ne_nil {α : Type} (l e : List α) (h : l ≠ []) :
    (l ++ e).head? = l.head? := by
  cases l with
  | nil => exact absurd rfl h
  | cons a t => rfl

theorem single_split {α : Type} {pre post : List α} {it x : α}
    (h : pre ++ it :: post = [x]) : pre = [] ∧ it = x ∧ post = [] := by
  cases pre with
  | nil => simp at h; exact ⟨rfl, h.1, h.2⟩
  | cons a t => simp at h

theorem nodup_pop_shuffle {α : Type} {a b k : List α} {u : α}
    (h : ((a ++ u :: b) ++ k).Nodup) : ((a ++ b) ++ (k ++ [u])).Nodup := by
  have h1 : List.Perm ((a ++ u :: b) ++ k) ((u :: (a ++ b)) ++ k) :=
    List.Perm.append_right k List.perm_middle
  have h2 : List.Perm (((a ++ b) ++ k) ++ [u]) (u :: ((a ++ b) ++ k)) :=
    List.perm_append_singleton u ((a ++ b) ++ k)
  have hp : List.Perm ((a ++ u :: b) ++ k) ((a ++ b) ++ (k ++ [u])) := by
    rw [← List.append_assoc (a ++ b) k [u]]
    exact h1.trans h2.symm
  exact hp.nodup_iff.mp h

theorem nodup_push_shuffle {α : Type} {q k : List α} {u : α}
    (h : (q ++ k).Nodup) (hu : u ∉ q ++ k) : ((q ++ [u]) ++ k).Nodup := by
  have hp : List.Perm ((q ++ [u]) ++ k) ((u :: q) ++ k) :=
    List.Perm.append_right k (List.perm_append_singleton u q)
  exact hp.symm.nodup_iff.mp (List.nodup_cons.mpr ⟨hu, h⟩)

theorem enqueue_store (st : CrawlState) (u p : String) (d : Nat) :
    (enqueue st u p d).store = st.store := by
  unfold enqueue
  split <;> rfl

theorem enqueue_dispatched (st : CrawlState) (u p : String) (d : Nat) :
    (enqueue st u p d).dispatched = st.dispatched := by
  unfold enqueue
  split <;> rfl

theorem alookup_pmappend_self (pm : List (String × List String)) (p u : String) :
    alookup (pmappend pm p u) p = some ((alookup pm p).getD [] ++ [u]) :=
  alookup_ainsert_self _ _ _

theorem alookup_pmappend_ne (pm : List (String × List String)) {p q : String} (u : String)
    (h : q ≠ p) : alookup (pmappend pm p u) q = alookup pm q :=
  alookup_ainsert_ne _ _ h

/-- Edges survive any `pmappend` (and any `sitemap_data` change). -/
theorem edge_mono {s : Store} {p0 c : String} (sd1 : List (String × Node)) (p u : String)
    (h : Edge s p0 c) :
    Edge { sitemap_data := sd1, parent_map := pmappend s.parent_map p u } p0 c := by
  unfold Edge pmGet at h ⊢
  by_cases hp : p0 = p
  · subst hp
    rw [alookup_pmappend_self]
    simp only [Option.getD_some]
    exact List.mem_append_left _ h
  · rw [alookup_pmappend_ne _ _ hp]
    exact h

/-- Every URL occurring in some children list of the parent map is a child of
one of its entries. -/
theorem mem_flatten_pm {pm : List (String × List String)} {c : String}
    (h : c ∈ (pm.map Prod.snd).flatten) : ∃ e ∈ pm, c ∈ e.2 := by
  rw [List.mem_flatten] at h
  obtain ⟨l, hl, hc⟩ := h
  rw [List.mem_map] at hl
  obtain ⟨e, he, rfl⟩ := hl
  exact ⟨e, he, hc⟩

theorem storeInv_empty : StoreInv { sitemap_data := [], parent_map := [] } := by
  refine ⟨?_, ?_, ?_, ?_, ?_, ?_, ?_, ?_, ?_, ?_, ?_, ?_, ?_⟩ <;> simp [akeys]

theorem inv_init : Inv initState := by
  refine ⟨storeInv_empty, Nat.le_refl 0, by decide, ?_, ?_, ?_, ?_, ?_, ?_, ?_, ?_, ?_, ?_⟩
  · simp [initState, akeys]
  · intro u hu
    simp [initState, akeys] at hu
    simp [initState, hu]
  · simp [initState]
  · intro it hit
    simp [initState] at hit
    subst hit
    decide
  · intro it hit
    simp [initState] at hit
    subst hit
    decide
  · intro it hit
    simp [initState] at hit
    subst hit
    exact Nat.zero_le _
  · intro it hit _
    simp [initState] at hit
    subst hit
    exact ⟨rfl, rfl⟩
  · intro it hit _
    simp [initState] at hit
    subst hit
    rfl
  · intro it hit p hp
    simp [initState] at hit
    subst hit
    simp at hp
  · intro _
    exact Or.inr rfl

/-- The store invariant after `parse` stores the seed node into the empty
store. -/
theorem storeInv_seed (resp : Response) (hurl : resp.url = seedUrl) :
    StoreInv { sitemap_data := [(seedUrl, parse_node resp none 0)], parent_map := [] } := by
  refine ⟨?_, ?_, ?_, ?_, ?_, ?_, ?_, ?_, ?_, ?_, ?_, ?_, ?_⟩
  · simp [akeys]
  · intro e he
    simp at he
    subst he
    simp [parse_node, hurl]
  · intro e he
    simp at he
    subst he
    exact Nat.zero_le _
  · intro e he
    simp at he
    subst he
    show should_follow seedUrl = true
    decide
  · intro e he
    simp at he
    subst he
    simp [parse_node]
  · intro e he
    simp at he
    subst he
    simp [parse_node]
  · intro e he
    simp at he
    subst he
    intro p hp
    simp [parse_node] at hp
  · exact Or.inr (by simp [akeys])
  · simp
  · simp
  · simp
  · simp
  · simp

/-- The store invariant after `parse` stores a fresh non-seed node whose
parent is already stored, and records the new edge. -/
theorem storeInv_insert (s : Store) (si : StoreInv s) (resp : Response) (p : String) (d : Nat)
    (hnot : resp.url ∉ akeys s.sitemap_data)
    (hp : ∃ m, alookup s.sitemap_data p = some m ∧ d = m.depth + 1)
    (hfol : should_follow resp.url = true)
    (hd : d ≤ DEPTH_LIMIT)
    (hne_seed : resp.url ≠ seedUrl) :
    StoreInv { sitemap_data := ainsert s.sitemap_data resp.url (parse_node resp (some p) d),
               parent_map := pmappend s.parent_map p resp.url } := by
  obtain ⟨m, hm, hdm⟩ := hp
  have hmem_p : p ∈ akeys s.sitemap_data := by
    rw [← alookup_isSome_iff, hm]
    rfl
  have hsd1 : ainsert s.sitemap_data resp.url (parse_node resp (some p) d) =
      s.sitemap_data ++ [(resp.url, parse_node resp (some p) d)] :=
    ainsert_of_not_mem _ hnot
  have hkeys1 : akeys (s.sitemap_data ++ [(resp.url, parse_node resp (some p) d)]) =
      akeys s.sitemap_data ++ [resp.url] := by
    rw [akeys_append]
    rfl
  have hpu : p ≠ resp.url := fun h => hnot (h ▸ hmem_p)
  have hsd_ne : s.sitemap_data ≠ [] := by
    intro h
    rw [h] at hmem_p
    simp [akeys] at hmem_p
  have hkeys_ne : akeys s.sitemap_data ≠ [] := by
    intro h
    rw [h] at hmem_p
    simp at hmem_p
  have hidx_old : ∀ x ∈ akeys s.sitemap_data,
      lidx (akeys s.sitemap_data ++ [resp.url]) x = lidx (akeys s.sitemap_data) x :=
    fun x hx => lidx_append_left _ hx
  have hidx_u : lidx (akeys s.sitemap_data ++ [resp.url]) resp.url =
      (akeys s.sitemap_data).length := by
    rw [lidx_append_right _ hnot]
    simp [lidx]
  have hchild_keys : ∀ c ∈ (s.parent_map.map Prod.snd).flatten, c ∈ akeys s.sitemap_data := by
    intro c hc
    obtain ⟨e, he, hce⟩ := mem_flatten_pm hc
    exact si.pm_child_key e he c hce
  rw [hsd1]
  -- case split on whether p already has a parent_map entry
  rcases hw : alookup s.parent_map p with _ | w
  · -- fresh parent_map key: the entry (p, [u]) is appended
    have hpm_not : p ∉ akeys s.parent_map := (alookup_eq_none_iff _ _).mp hw
    have hpm1 : pmappend s.parent_map p resp.url = s.parent_map ++ [(p, [resp.url])] := by
      unfold pmappend
      rw [hw]
      exact ainsert_of_not_mem _ hpm_not
    rw [hpm1]
    refine ⟨?_, ?_, ?_, ?_, ?_, ?_, ?_, ?_, ?_, ?_, ?_, ?_, ?_⟩
    · rw [hkeys1]
      refine List.Nodup.append si.keys_nodup (by simp) ?_
      intro a ha hau
      simp at hau
      exact hnot (hau ▸ ha)
    · intro e he
      rcases List.mem_append.mp he with h | h
      · exact si.entry_url e h
      · simp at h
        subst h
        simp [parse_node]
    · intro e he
      rcases List.mem_append.mp he with h | h
      · exact si.entry_depth_le e h
      · simp at h
        subst h
        exact hd
    · intro e he
      rcases List.mem_append.mp he with h | h
      · exact si.entry_follow e h
      · simp at h
        subst h
        exact hfol
    · intro e he
      rcases List.mem_append.mp he with h | h
      · exact si.seed_parent e h
      · simp at h
        subst h
        simp [parse_node]
        exact hne_seed
    · intro e he
      rcases List.mem_append.mp he with h | h
      · exact si.seed_depth e h
      · simp at h
        subst h
        exact fun hc => absurd hc hne_seed
    · intro e he p0 hp0
      rcases List.mem_append.mp he with h | h
      · obtain ⟨m0, hm0, hd0, hedge⟩ := si.parent_rel e h p0 hp0
        refine ⟨m0, alookup_append_left _ hm0, hd0, ?_⟩
        have := edge_mono (s := s) (s.sitemap_data ++ [(resp.url, parse_node resp (some p) d)])
          p resp.url hedge
        rw [hpm1] at this
        exact this
      · simp at h
        subst h
        simp [parse_node] at hp0
        subst hp0
        refine ⟨m, alookup_append_left _ hm, by simp [parse_node, hdm], ?_⟩
        unfold Edge pmGet
        simp only
        rw [show alookup (s.parent_map ++ [(p, [resp.url])]) p = some [resp.url] from by
          rw [alookup_append_right _ hpm_not]
          simp [alookup]]
        simp
    · refine Or.inr ?_
      rw [hkeys1, head_append_of_ne_nil _ _ hkeys_ne]
      rcases si.keys_head with h | h
      · exact absurd h hsd_ne
      · exact h
    · simp only [List.map_append]
      refine List.Nodup.append si.pm_keys_nodup (by simp) ?_
      intro a ha hau
      simp at hau
      subst hau
      exact hpm_not (by simpa [akeys] using ha)
    · intro e he
      rw [hkeys1]
      rcases List.mem_append.mp he with h | h
      · exact List.mem_append_left _ (si.pm_entry_key e h)
      · simp at h
        subst h
        exact List.mem_append_left _ hmem_p
    · intro e he c hc
      rw [hkeys1]
      rcases List.mem_append.mp he with h | h
      · exact List.mem_append_left _ (si.pm_child_key e h c hc)
      · simp at h
        subst h
        simp at hc
        subst hc
        simp
    · intro e he c hc
      rw [hkeys1]
      rcases List.mem_append.mp he with h | h
      · rw [hidx_old e.1 (si.pm_entry_key e h), hidx_old c (si.pm_child_key e h c hc)]
        exact si.pm_lt e h c hc
      · simp at h
        subst h
        simp at hc
        subst hc
        rw [hidx_u]
        simp only
        rw [hidx_old p hmem_p]
        exact lidx_lt_length hmem_p
    · simp only [List.map_append, List.flatten_append]
      simp only [List.map_cons, List.map_nil, List.flatten_cons, List.flatten_nil,
        List.append_nil]
      refine List.Nodup.append si.pm_once (by simp) ?_
      intro a ha hau
      simp at hau
      subst hau
      exact hnot (hchild_keys _ ha)
  · -- existing parent_map entry (p, w): it becomes (p, w ++ [u]) in place
    obtain ⟨l1, l2, hsplit, hl1⟩ := alookup_split hw
    have hpm1 : pmappend s.parent_map p resp.url = l1 ++ (p, w ++ [resp.url]) :: l2 := by
      unfold pmappend
      rw [hw, hsplit]
      exact ainsert_split _ _ hl1
    have hmem_entry : ∀ e, e ∈ l1 ++ (p, w ++ [resp.url]) :: l2 →
        e ∈ s.parent_map ∨ e = (p, w ++ [resp.url]) := by
      intro e he
      rcases List.mem_append.mp he with h | h
      · exact Or.inl (by rw [hsplit]; exact List.mem_append_left _ h)
      · rcases List.mem_cons.mp h with h | h
        · exact Or.inr h
        · exact Or.inl (by rw [hsplit]; exact List.mem_append_right _ (List.mem_cons_of_mem _ h))
    have hpw : (p, w) ∈ s.parent_map := by
      rw [hsplit]
      exact List.mem_append_right _ (List.mem_cons_self _ _)
    rw [hpm1]
    refine ⟨?_, ?_, ?_, ?_, ?_, ?_, ?_, ?_, ?_, ?_, ?_, ?_, ?_⟩
    · rw [hkeys1]
      refine List.Nodup.append si.keys_nodup (by simp) ?_
      intro a ha hau
      simp at hau
      exact hnot (hau ▸ ha)
    · intro e he
      rcases List.mem_append.mp he with h | h
      · exact si.entry_url e h
      · simp at h
        subst h
        simp [parse_node]
    · intro e he
      rcases List.mem_append.mp he with h | h
      · exact si.entry_depth_le e h
      · simp at h
        subst h
        exact hd
    · intro e he
      rcases List.mem_append.mp he with h | h
      · exact si.entry_follow e h
      · simp at h
        subst h
        exact hfol
    · intro e he
      rcases List.mem_append.mp he with h | h
      · exact si.seed_parent e h
      · simp at h
        subst h
        simp [parse_node]
        exact hne_seed
    · intro e he
      rcases List.mem_append.mp he with h | h
      · exact si.seed_depth e h
      · simp at h
        subst h
        exact fun hc => absurd hc hne_seed
    · intro e he p0 hp0
      rcases List.mem_append.mp he with h | h
      · obtain ⟨m0, hm0, hd0, hedge⟩ := si.parent_rel e h p0 hp0
        refine ⟨m0, alookup_append_left _ hm0, hd0, ?_⟩
        have := edge_mono (s := s) (s.sitemap_data ++ [(resp.url, parse_node resp (some p) d)])
          p resp.url hedge
        rw [hpm1] at this
        exact this
      · simp at h
        subst h
        simp [parse_node] at hp0
        subst hp0
        refine ⟨m, alookup_append_left _ hm, by simp [parse_node, hdm], ?_⟩
        have hed : Edge (Store.mk (s.sitemap_data ++ [(resp.url, parse_node resp (some p) d)])
            (pmappend s.parent_map p resp.url)) p resp.url := by
          unfold Edge pmGet
          simp only
          rw [alookup_pmappend_self]
          simp
        rw [hpm1] at hed
        exact hed
    · refine Or.inr ?_
      rw [hkeys1, head_append_of_ne_nil _ _ hkeys_ne]
      rcases si.keys_head with h | h
      · exact absurd h hsd_ne
      · exact h
    · have : (l1 ++ (p, w ++ [resp.url]) :: l2).map Prod.fst =
          (l1 ++ (p, w) :: l2).map Prod.fst := by
        simp
      rw [this, ← hsplit]
      exact si.pm_keys_nodup
    · intro e he
      rw [hkeys1]
      rcases hmem_entry e he with h | h
      · exact List.mem_append_left _ (si.pm_entry_key e h)
      · subst h
        exact List.mem_append_left _ hmem_p
    · intro e he c hc
      rw [hkeys1]
      rcases hmem_entry e he with h | h
      · exact List.mem_append_left _ (si.pm_child_key e h c hc)
      · subst h
        simp at hc
        rcases hc with hc | hc
        · exact List.mem_append_left _ (si.pm_child_key _ hpw c hc)
        · subst hc
          simp
    · intro e he c hc
      rw [hkeys1]
      rcases hmem_entry e he with h | h
      · rw [hidx_old e.1 (si.pm_entry_key e h), hidx_old c (si.pm_child_key e h c hc)]
        exact si.pm_lt e h c hc
      · subst h
        simp at hc
        rcases hc with hc | hc
        · rw [hidx_old p (si.pm_entry_key _ hpw), hidx_old c (si.pm_child_key _ hpw c hc)]
          exact si.pm_lt _ hpw c hc
        · subst hc
          rw [hidx_u]
          simp only
          rw [hidx_old p hmem_p]
          exact lidx_lt_length hmem_p
    · -- pm_once: the flatten gains exactly one occurrence of the fresh URL
      have hold : ((s.parent_map.map Prod.snd).flatten) =
          ((l1.map Prod.snd).flatten ++ w) ++ (l2.map Prod.snd).flatten := by
        rw [hsplit]
        simp [List.flatten_append]
      have hnew : (((l1 ++ (p, w ++ [resp.url]) :: l2).map Prod.snd).flatten) =
          ((l1.map Prod.snd).flatten ++ w) ++ resp.url :: (l2.map Prod.snd).flatten := by
        simp [List.flatten_append]
      rw [hnew, List.nodup_middle]
      constructor
      · intro x hx heq
        subst heq
        rw [← hold] at hx
        exact hnot (hchild_keys _ hx)
      · rw [← hold]
        exact si.pm_once

/-- `enqueue` preserves the crawl invariant, provided the (non-empty) store
holds the parent at the depth below the enqueued depth. -/
theorem enqueue_inv (st : CrawlState) (hI : Inv st) (l pu : String) (d2 : Nat)
    (hne : st.store.sitemap_data ≠ [])
    (hpu : ∃ m, alookup st.store.sitemap_data pu = some m ∧ d2 = m.depth + 1)
    (hpune : pu ≠ "")
    (hf : should_follow l = true) (hl : l ≠ "") :
    Inv (enqueue st l pu d2) := by
  unfold enqueue
  split
  · exact hI
  · rename_i hcond
    push_neg at hcond
    obtain ⟨hseen, hdep, _⟩ := hcond
    have hlq : l ∉ st.queue.map QItem.url ++ akeys st.store.sitemap_data :=
      fun hm => hseen (hI.sub_seen l hm)
    refine ⟨hI.store_inv, hI.count_le, hI.disp_le, ?_, ?_, ?_, ?_, ?_, ?_, ?_, ?_, ?_, ?_⟩
    · simp only [List.map_append, List.map_cons, List.map_nil]
      exact nodup_push_shuffle hI.qk_nodup hlq
    · intro u hu
      simp only [List.map_append, List.map_cons, List.map_nil] at hu
      rcases List.mem_append.mp hu with h1 | h1
      · rcases List.mem_append.mp h1 with h2 | h2
        · exact List.mem_append_left _ (hI.sub_seen u (List.mem_append_left _ h2))
        · simp at h2
          subst h2
          exact List.mem_append_right _ (by simp)
      · exact List.mem_append_left _ (hI.sub_seen u (List.mem_append_right _ h1))
    · exact List.mem_append_left _ hI.seed_seen
    · intro it hit
      rcases List.mem_append.mp hit with h | h
      · exact hI.q_follow it h
      · simp at h
        subst h
        exact hf
    · intro it hit
      rcases List.mem_append.mp hit with h | h
      · exact hI.q_ne it h
      · simp at h
        subst h
        exact hl
    · intro it hit
      rcases List.mem_append.mp hit with h | h
      · exact hI.q_depth it h
      · simp at h
        subst h
        exact hdep
    · intro it hit hpar
      rcases List.mem_append.mp hit with h | h
      · exact hI.q_none it h hpar
      · simp at h
        subst h
        simp at hpar
    · intro it hit hurl
      rcases List.mem_append.mp hit with h | h
      · exact hI.q_seed it h hurl
      · simp at h
        subst h
        exact absurd hI.seed_seen (hurl ▸ hseen)
    · intro it hit p0 hp0
      rcases List.mem_append.mp hit with h | h
      · exact hI.q_par it h p0 hp0
      · simp at h
        subst h
        simp at hp0
        subst hp0
        exact ⟨hpune, hpu⟩
    · intro hcon
      exact absurd hcon hne

/-- Folding `enqueue` over the follow requests of a just-parsed page preserves
the crawl invariant. -/
theorem foldl_enqueue_inv (d : Nat) (u : String) :
    ∀ (rs : List Request) (st : CrawlState), Inv st →
    st.store.sitemap_data ≠ [] →
    (∃ m, alookup st.store.sitemap_data u = some m ∧ m.depth = d) →
    u ≠ "" →
    (∀ r ∈ rs, r.parent_url = u ∧ should_follow r.url = true ∧ r.url ≠ "") →
    Inv (rs.foldl (fun acc r => enqueue acc r.url r.parent_url (d + 1)) st) := by
  intro rs
  induction rs with
  | nil =>
    intro st hI _ _ _ _
    simpa using hI
  | cons r rest ih =>
    intro st hI hne hm hune hr
    obtain ⟨hpar, hfol, hrne⟩ := hr r (List.mem_cons_self _ _)
    simp only [List.foldl_cons]
    have h1 : Inv (enqueue st r.url r.parent_url (d + 1)) := by
      rw [hpar]
      refine enqueue_inv st hI r.url u (d + 1) hne ?_ hune hfol hrne
      obtain ⟨m, hm1, hm2⟩ := hm
      exact ⟨m, hm1, by rw [hm2]⟩
    refine ih _ h1 ?_ ?_ hune ?_
    · rw [enqueue_store]
      exact hne
    · rw [enqueue_store]
      exact hm
    · intro r2 hr2
      exact hr r2 (List.mem_cons_of_mem _ hr2)

theorem parse_not_html (s : Store) (resp : Response) (par : Option String) (d : Nat)
    (h : strContains (strLower resp.contentType) "text/html" = false) :
    parse s resp par d = (s, []) := by
  simp [parse, h]

theorem parse_html_none (s : Store) (resp : Response) (d : Nat)
    (h : strContains (strLower resp.contentType) "text/html" = true) :
    parse s resp none d =
      ({ sitemap_data := ainsert s.sitemap_data resp.url (parse_node resp none d),
         parent_map := s.parent_map }, parse_requests resp) := by
  simp [parse, h]

theorem parse_html_some (s : Store) (resp : Response) (p : String) (d : Nat)
    (h : strContains (strLower resp.contentType) "text/html" = true)
    (hp : p ≠ "")
    (hps : (alookup (ainsert s.sitemap_data resp.url (parse_node resp (some p) d)) p).isSome
      = true) :
    parse s resp (some p) d =
      ({ sitemap_data := ainsert s.sitemap_data resp.url (parse_node resp (some p) d),
         parent_map := pmappend s.parent_map p resp.url }, parse_requests resp) := by
  simp [parse, h, hp, hps]

theorem parse_requests_mem {resp : Response} {r : Request} (h : r ∈ parse_requests resp) :
    r.parent_url = resp.url ∧ should_follow r.url = true ∧
      ∃ href, r.url = resp.urljoin href := by
  unfold parse_requests at h
  rw [List.mem_map] at h
  obtain ⟨l, hl, rfl⟩ := h
  rw [List.mem_filter] at hl
  refine ⟨rfl, hl.2, ?_⟩
  have h1 := hl.1
  unfold extract_child_urls at h1
  rw [List.mem_map] at h1
  obtain ⟨href, _, rfl⟩ := h1
  exact ⟨href, rfl⟩

/-- One crawl step preserves the invariant. -/
theorem step_inv {st st2 : CrawlState} (hI : Inv st) (h : Step st st2) : Inv st2 := by
  cases h with
  | fetch url par d pre post resp hq hlim hurl hjoin =>
    subst hurl
    have hitem : (⟨resp.url, par, d⟩ : QItem) ∈ st.queue := by
      rw [hq]
      exact List.mem_append_right _ (List.mem_cons_self _ _)
    have hfol : should_follow resp.url = true := hI.q_follow _ hitem
    have hune : resp.url ≠ "" := hI.q_ne _ hitem
    have hdep : d ≤ DEPTH_LIMIT := hI.q_depth _ hitem
    have hmapq : resp.url ∈ st.queue.map QItem.url :=
      List.mem_map.mpr ⟨_, hitem, rfl⟩
    have hdisj := (List.nodup_append.mp hI.qk_nodup).2.2
    have hu_not : resp.url ∉ akeys st.store.sitemap_data := fun hmem => hdisj hmapq hmem
    have hqmap : st.queue.map QItem.url =
        pre.map QItem.url ++ resp.url :: post.map QItem.url := by
      rw [hq]
      simp
    have hsubq : ∀ it, it ∈ pre ++ post → it ∈ st.queue := by
      intro it hit
      rw [hq]
      rcases List.mem_append.mp hit with h1 | h1
      · exact List.mem_append_left _ h1
      · exact List.mem_append_right _ (List.mem_cons_of_mem _ h1)
    unfold stepResult
    by_cases hhtml : strContains (strLower resp.contentType) "text/html" = true
    · -- HTML response: a fresh node is stored
      rcases par with _ | p
      · -- the seed dispatch: the store is still empty
        have hqn := hI.q_none _ hitem rfl
        have hseed_eq : resp.url = seedUrl := hqn.1
        have hd0 : d = 0 := hqn.2
        subst hd0
        have hsd_empty : st.store.sitemap_data = [] := by
          by_contra hne2
          rcases hI.store_inv.keys_head with h1 | h1
          · exact hne2 h1
          · have hseedk : seedUrl ∈ akeys st.store.sitemap_data := by
              cases hk : akeys st.store.sitemap_data with
              | nil => rw [hk] at h1; simp at h1
              | cons a t =>
                rw [hk] at h1
                simp at h1
                simp [h1]
            exact hdisj (hseed_eq ▸ hmapq) hseedk
        have hpm_empty : st.store.parent_map = [] := by
          cases hpm : st.store.parent_map with
          | nil => rfl
          | cons e t =>
            have hcon := hI.store_inv.pm_entry_key e (by rw [hpm]; exact List.mem_cons_self _ _)
            rw [hsd_empty] at hcon
            simp [akeys] at hcon
        have hprepost : pre = [] ∧ post = [] := by
          rcases hI.empty_q hsd_empty with hqe | hqe
          · rw [hq] at hqe
            simp at hqe
          · rw [hq] at hqe
            obtain ⟨hpre, _, hpost⟩ := single_split hqe
            exact ⟨hpre, hpost⟩
        obtain ⟨hpre, hpost⟩ := hprepost
        subst hpre
        subst hpost
        rw [parse_html_none _ _ _ hhtml]
        have hsd1 : ainsert st.store.sitemap_data resp.url (parse_node resp none 0) =
            [(resp.url, parse_node resp none 0)] := by
          rw [hsd_empty]
          rfl
        have hsi2 : StoreInv (Store.mk
            (ainsert st.store.sitemap_data resp.url (parse_node resp none 0))
            st.store.parent_map) := by
          rw [hsd1, hpm_empty, hseed_eq]
          exact storeInv_seed resp hseed_eq
        refine foldl_enqueue_inv 0 resp.url (parse_requests resp) _
          ⟨hsi2, ?_, ?_, ?_, ?_, ?_, ?_, ?_, ?_, ?_, ?_, ?_, ?_⟩ ?_ ?_ hune ?_
        · simp only [hsd1]
          simp
        · exact hlim
        · simp only [hsd1]
          simp [akeys]
        · intro u hu
          simp only [hsd1] at hu
          simp [akeys] at hu
          subst hu
          exact hI.sub_seen resp.url (List.mem_append_left _ hmapq)
        · exact hI.seed_seen
        · intro it hit
          simp at hit
        · intro it hit
          simp at hit
        · intro it hit
          simp at hit
        · intro it hit
          simp at hit
        · intro it hit
          simp at hit
        · intro it hit
          simp at hit
        · intro hcon
          simp only [hsd1] at hcon
          simp at hcon
        · simp only [hsd1]
          simp
        · refine ⟨parse_node resp none 0, ?_, rfl⟩
          simp only [hsd1]
          simp [alookup]
        · intro r hr
          obtain ⟨h1, h2, href, h3⟩ := parse_requests_mem hr
          exact ⟨h1, h2, by rw [h3]; exact hjoin href⟩
      · -- a non-seed dispatch: the parent is already stored
        obtain ⟨hpne, m, hm, hdm0⟩ := hI.q_par _ hitem p rfl
        have hdm : d = m.depth + 1 := hdm0
        have hsd1eq : ainsert st.store.sitemap_data resp.url (parse_node resp (some p) d) =
            st.store.sitemap_data ++ [(resp.url, parse_node resp (some p) d)] :=
          ainsert_of_not_mem _ hu_not
        have hkeys1 : akeys (ainsert st.store.sitemap_data resp.url
            (parse_node resp (some p) d)) = akeys st.store.sitemap_data ++ [resp.url] := by
          rw [hsd1eq, akeys_append]
          rfl
        have hlookup1 : alookup (ainsert st.store.sitemap_data resp.url
            (parse_node resp (some p) d)) p = some m := by
          rw [hsd1eq]
          exact alookup_append_left _ hm
        have hne_seed : resp.url ≠ seedUrl := by
          intro hcon
          have := hI.q_seed _ hitem hcon
          simp at this
        rw [parse_html_some _ _ _ _ hhtml hpne (by rw [hlookup1]; rfl)]
        have hsi2 : StoreInv (Store.mk
            (ainsert st.store.sitemap_data resp.url (parse_node resp (some p) d))
            (pmappend st.store.parent_map p resp.url)) :=
          storeInv_insert st.store hI.store_inv resp p d hu_not ⟨m, hm, hdm⟩ hfol hdep hne_seed
        have hsd_ne2 : ainsert st.store.sitemap_data resp.url (parse_node resp (some p) d)
            ≠ [] := by
          rw [hsd1eq]
          simp
        refine foldl_enqueue_inv d resp.url (parse_requests resp) _
          ⟨hsi2, ?_, ?_, ?_, ?_, ?_, ?_, ?_, ?_, ?_, ?_, ?_, ?_⟩ hsd_ne2 ?_ hune ?_
        · simp only [hsd1eq]
          simp
          exact hI.count_le
        · exact hlim
        · simp only [List.map_append]
          rw [hkeys1]
          refine nodup_pop_shuffle (a := pre.map QItem.url) (b := post.map QItem.url)
            (u := resp.url) ?_
          rw [← hqmap]
          exact hI.qk_nodup
        · intro u hu
          apply hI.sub_seen
          rw [hqmap]
          revert hu
          simp only [List.map_append, hkeys1, List.mem_append, List.mem_cons,
            List.mem_singleton]
          tauto
        · exact hI.seed_seen
        · intro it hit
          exact hI.q_follow it (hsubq it hit)
        · intro it hit
          exact hI.q_ne it (hsubq it hit)
        · intro it hit
          exact hI.q_depth it (hsubq it hit)
        · intro it hit hp0
          exact hI.q_none it (hsubq it hit) hp0
        · intro it hit hp0
          exact hI.q_seed it (hsubq it hit) hp0
        · intro it hit p0 hp0
          obtain ⟨h1, m0, h2, h3⟩ := hI.q_par it (hsubq it hit) p0 hp0
          refine ⟨h1, m0, ?_, h3⟩
          rw [hsd1eq]
          exact alookup_append_left _ h2
        · intro hcon
          exact absurd hcon hsd_ne2
        · refine ⟨parse_node resp (some p) d, ?_, rfl⟩
          rw [hsd1eq, alookup_append_right _ hu_not]
          simp [alookup]
        · intro r hr
          obtain ⟨h1, h2, href, h3⟩ := parse_requests_mem hr
          exact ⟨h1, h2, by rw [h3]; exact hjoin href⟩
    · -- non-HTML response: nothing stored, nothing followed
      have hb : strContains (strLower resp.contentType) "text/html" = false := by
        revert hhtml
        cases strContains (strLower resp.contentType) "text/html" <;> simp
      rw [parse_not_html _ _ _ _ hb]
      simp only [List.foldl_nil]
      refine ⟨hI.store_inv, ?_, ?_, ?_, ?_, ?_, ?_, ?_, ?_, ?_, ?_, ?_, ?_⟩
      · exact Nat.le_trans hI.count_le (Nat.le_succ _)
      · exact hlim
      · have hsub : List.Sublist ((pre ++ post).map QItem.url ++ akeys st.store.sitemap_data)
            (st.queue.map QItem.url ++ akeys st.store.sitemap_data) := by
          rw [hqmap]
          simp only [List.map_append]
          exact List.Sublist.append
            (List.Sublist.append_left (List.Sublist.cons _ (List.Sublist.refl _)) _)
            (List.Sublist.refl _)
        exact List.Nodup.sublist hsub hI.qk_nodup
      · intro u hu
        apply hI.sub_seen
        rw [hqmap]
        revert hu
        simp only [List.map_append, List.mem_append, List.mem_cons]
        tauto
      · exact hI.seed_seen
      · intro it hit
        exact hI.q_follow it (hsubq it hit)
      · intro it hit
        exact hI.q_ne it (hsubq it hit)
      · intro it hit
        exact hI.q_depth it (hsubq it hit)
      · intro it hit hp0
        exact hI.q_none it (hsubq it hit) hp0
      · intro it hit hp0
        exact hI.q_seed it (hsubq it hit) hp0
      · intro it hit p0 hp0
        exact hI.q_par it (hsubq it hit) p0 hp0
      · intro hs
        rcases hI.empty_q hs with h1 | h1
        · rw [hq] at h1
          simp at h1
        · rw [hq] at h1
          obtain ⟨hpre, _, hpost⟩ := single_split h1
          subst hpre
          subst hpost
          exact Or.inl rfl

/-- Every reachable crawl state satisfies the invariant. -/
theorem reachable_inv {st : CrawlState} (h : Reachable st) : Inv st := by
  induction h with
  | init => exact inv_init
  | step _ hstep ih => exact step_inv ih hstep

/-! ### `build_tree` never writes the store -/

theorem build_kids_state {bt : Store → String → Option (Option TreeNode × Store)}
    (hbt : ∀ s u r, bt s u = some r → r.2 = s) :
    ∀ cs s r, build_kids bt s cs = some r → r.2 = s := by
  intro cs
  induction cs with
  | nil =>
    intro s r h
    unfold build_kids at h
    injection h with h2
    subst h2
    rfl
  | cons c rest ih =>
    intro s r h
    unfold build_kids at h
    split at h
    · simp at h
    · rename_i copt s1 hbc
      split at h
      · simp at h
      · rename_i ts s2 hk
        injection h with h2
        subst h2
        have e1 : s1 = s := hbt s c _ hbc
        have e2 : s2 = s1 := ih s1 _ hk
        simp [e1, e2]

theorem build_tree_state : ∀ fuel s u r, build_tree fuel s u = some r → r.2 = s := by
  intro fuel
  induction fuel with
  | zero =>
    intro s u r h
    simp [build_tree] at h
  | succ f ih =>
    intro s u r h
    unfold build_tree at h
    split at h
    · injection h with h2
      subst h2
      rfl
    · rename_i nd hnd
      split at h
      · simp at h
      · rename_i cs s1 hk
        injection h with h2
        subst h2
        exact build_kids_state (fun s3 u3 r3 h3 => ih s3 u3 r3 h3) _ s _ hk

/-! ### Reachability along the recorded edges -/

/-- `Reaches s a b`: `b` is reachable from `a` along recorded parent-to-child
edges (reflexive-transitive closure of `Edge s`). -/
inductive Reaches (s : Store) : String → String → Prop where
  | refl (u : String) : Reaches s u u
  | tail {u p c : String} : Reaches s u p → Edge s p c → Reaches s u c

theorem edge_entry {s : Store} {p c : String} (h : Edge s p c) :
    ∃ e ∈ s.parent_map, e.1 = p ∧ c ∈ e.2 := by
  unfold Edge pmGet at h
  cases hw : alookup s.parent_map p with
  | none =>
    rw [hw] at h
    simp at h
  | some w =>
    rw [hw] at h
    simp at h
    exact ⟨(p, w), alookup_mem hw, rfl, h⟩

theorem edge_lt {s : Store} (si : StoreInv s) {p c : String} (h : Edge s p c) :
    lidx (akeys s.sitemap_data) p < lidx (akeys s.sitemap_data) c := by
  obtain ⟨e, he, hp, hc⟩ := edge_entry h
  have := si.pm_lt e he c hc
  rw [hp] at this
  exact this

theorem edge_keys {s : Store} (si : StoreInv s) {p c : String} (h : Edge s p c) :
    p ∈ akeys s.sitemap_data ∧ c ∈ akeys s.sitemap_data := by
  obtain ⟨e, he, hp, hc⟩ := edge_entry h
  exact ⟨hp ▸ si.pm_entry_key e he, si.pm_child_key e he c hc⟩

theorem reaches_le {s : Store} (si : StoreInv s) {a b : String} (h : Reaches s a b) :
    lidx (akeys s.sitemap_data) a ≤ lidx (akeys s.sitemap_data) b := by
  induction h with
  | refl => exact Nat.le_refl _
  | tail _ hedge ih => exact Nat.le_trans ih (Nat.le_of_lt (edge_lt si hedge))

/-- In a crawl-produced store, every URL has at most one recorded parent. -/
theorem unique_parent {s : Store} (si : StoreInv s) {p q c : String}
    (hp : Edge s p c) (hq : Edge s q c) : p = q := by
  by_contra hne
  unfold Edge pmGet at hp hq
  cases hwp : alookup s.parent_map p with
  | none =>
    rw [hwp] at hp
    simp at hp
  | some w =>
    rw [hwp] at hp
    simp at hp
    cases hwq : alookup s.parent_map q with
    | none =>
      rw [hwq] at hq
      simp at hq
    | some w2 =>
      rw [hwq] at hq
      simp at hq
      obtain ⟨l1, l2, hsplit, _⟩ := alookup_split hwp
      have hqmem : (q, w2) ∈ l1 ++ l2 := by
        have hmem := alookup_mem hwq
        rw [hsplit] at hmem
        rcases List.mem_append.mp hmem with h1 | h1
        · exact List.mem_append_left _ h1
        · rcases List.mem_cons.mp h1 with h2 | h2
          · have hqp : q = p := congrArg Prod.fst h2
            exact absurd hqp.symm hne
          · exact List.mem_append_right _ h2
      have honce := si.pm_once
      rw [hsplit] at honce
      simp only [List.map_append, List.map_cons, List.flatten_append, List.flatten_cons]
        at honce
      have hnod := List.nodup_append.mp honce
      rcases List.mem_append.mp hqmem with h1 | h1
      · have hcf : c ∈ (l1.map Prod.snd).flatten :=
          List.mem_flatten.mpr ⟨w2, List.mem_map.mpr ⟨(q, w2), h1, rfl⟩, hq⟩
        exact hnod.2.2 hcf (List.mem_append_left _ hp)
      · have hcf : c ∈ (l2.map Prod.snd).flatten :=
          List.mem_flatten.mpr ⟨w2, List.mem_map.mpr ⟨(q, w2), h1, rfl⟩, hq⟩
        exact (List.nodup_append.mp hnod.2.1).2.2 hp hcf

/-- In a crawl-produced store, each recorded children list has no duplicates. -/
theorem pmGet_nodup {s : Store} (si : StoreInv s) (p : String) : (pmGet s p).Nodup := by
  unfold pmGet
  cases hw : alookup s.parent_map p with
  | none => simp
  | some w =>
    simp only [Option.getD_some]
    obtain ⟨l1, l2, hsplit, _⟩ := alookup_split hw
    have honce := si.pm_once
    rw [hsplit] at honce
    simp only [List.map_append, List.map_cons, List.flatten_append, List.flatten_cons]
      at honce
    exact (List.nodup_append.mp (List.nodup_append.mp honce).2.1).1

theorem reaches_confluence {s : Store} (si : StoreInv s) {a k : String}
    (h : Reaches s a k) :
    ∀ b, Reaches s b k → Reaches s a b ∨ Reaches s b a := by
  induction h with
  | refl => intro b hb; exact Or.inr hb
  | tail hap hedge ih =>
    intro b hb
    cases hb with
    | refl => exact Or.inl (Reaches.tail hap hedge)
    | tail hbp hedge2 =>
      have hpq := unique_parent si hedge2 hedge
      subst hpq
      exact ih b hbp

/-- Two distinct children of the same node have disjoint descendant sets. -/
theorem no_cross {s : Store} (si : StoreInv s) {u c c2 k : String}
    (hc : Edge s u c) (hc2 : Edge s u c2) (hne : c ≠ c2)
    (h1 : Reaches s c k) (h2 : Reaches s c2 k) : False := by
  rcases reaches_confluence si h1 c2 h2 with h | h
  · cases h with
    | refl => exact hne rfl
    | tail hcp hedge =>
      have hpu := unique_parent si hedge hc2
      subst hpu
      have hle := reaches_le si hcp
      have hlt := edge_lt si hc
      omega
  · cases h with
    | refl => exact hne rfl
    | tail hcp hedge =>
      have hpu := unique_parent si hedge hc
      subst hpu
      have hle := reaches_le si hcp
      have hlt := edge_lt si hc2
      omega

theorem reaches_head {s : Store} {u c k : String} (he : Edge s u c)
    (h : Reaches s c k) : Reaches s u k := by
  induction h with
  | refl => exact Reaches.tail (Reaches.refl u) he
  | tail _ hedge ih => exact Reaches.tail ih hedge

theorem reaches_cases {s : Store} {u k : String} (h : Reaches s u k) :
    k = u ∨ ∃ c, Edge s u c ∧ Reaches s c k := by
  induction h with
  | refl => exact Or.inl rfl
  | tail hup hedge ih =>
    rcases ih with h1 | ⟨c, hc, hck⟩
    · subst h1
      exact Or.inr ⟨_, hedge, Reaches.refl _⟩
    · exact Or.inr ⟨c, hc, Reaches.tail hck hedge⟩

/-! ### The main `build_tree` theorem on crawl-produced stores -/

theorem build_kids_main (s : Store) (si : StoreInv s) (f : Nat) (u : String)
    (hu : u ∈ akeys s.sitemap_data)
    (hfu : (akeys s.sitemap_data).length - lidx (akeys s.sitemap_data) u < f + 1)
    (IH : ∀ c, c ∈ akeys s.sitemap_data →
      (akeys s.sitemap_data).length - lidx (akeys s.sitemap_data) c < f →
      ∃ t, build_tree f s c = some (some t, s) ∧
        (∀ k, k ∈ treeUrls t ↔ Reaches s c k) ∧
        (∀ k, k ∈ treeUrls t →
          lidx (akeys s.sitemap_data) c ≤ lidx (akeys s.sitemap_data) k) ∧
        (treeUrls t).Nodup) :
    ∀ cs, cs.Nodup → (∀ c ∈ cs, Edge s u c) →
    ∃ ts, build_kids (build_tree f) s cs = some (ts, s) ∧
      (∀ k, k ∈ treeUrlsList ts ↔ ∃ c ∈ cs, Reaches s c k) ∧
      (∀ k, k ∈ treeUrlsList ts →
        lidx (akeys s.sitemap_data) u < lidx (akeys s.sitemap_data) k) ∧
      (treeUrlsList ts).Nodup := by
  intro cs
  induction cs with
  | nil =>
    intro _ _
    refine ⟨[], by simp [build_kids], ?_, ?_, ?_⟩ <;> simp [treeUrlsList]
  | cons c rest ih =>
    intro hnd hsub
    have hedge : Edge s u c := hsub c (List.mem_cons_self _ _)
    have hck : c ∈ akeys s.sitemap_data := (edge_keys si hedge).2
    have hlt : lidx (akeys s.sitemap_data) u < lidx (akeys s.sitemap_data) c :=
      edge_lt si hedge
    have hcb : (akeys s.sitemap_data).length - lidx (akeys s.sitemap_data) c < f := by
      have h1 := lidx_lt_length hck
      have h2 := lidx_lt_length hu
      omega
    obtain ⟨t, hbt, hmem, hidx, hnd_t⟩ := IH c hck hcb
    obtain ⟨ts, hbk, hmem2, hidx2, hnd2⟩ :=
      ih (List.nodup_cons.mp hnd).2 (fun c2 h2 => hsub c2 (List.mem_cons_of_mem _ h2))
    refine ⟨t :: ts, ?_, ?_, ?_, ?_⟩
    · simp [build_kids, hbt, hbk]
    · intro k
      simp only [treeUrlsList, List.mem_append]
      constructor
      · rintro (h | h)
        · exact ⟨c, List.mem_cons_self _ _, (hmem k).mp h⟩
        · obtain ⟨c2, hc2, hr⟩ := (hmem2 k).mp h
          exact ⟨c2, List.mem_cons_of_mem _ hc2, hr⟩
      · rintro ⟨c2, hc2, hr⟩
        rcases List.mem_cons.mp hc2 with h1 | h1
        · subst h1
          exact Or.inl ((hmem k).mpr hr)
        · exact Or.inr ((hmem2 k).mpr ⟨c2, h1, hr⟩)
    · intro k hk
      simp only [treeUrlsList, List.mem_append] at hk
      rcases hk with h | h
      · exact Nat.lt_of_lt_of_le hlt (hidx k h)
      · exact hidx2 k h
    · simp only [treeUrlsList]
      rw [List.nodup_append]
      refine ⟨hnd_t, hnd2, ?_⟩
      intro k hk1 hk2
      obtain ⟨c2, hc2, hr2⟩ := (hmem2 k).mp hk2
      have hr1 := (hmem k).mp hk1
      have hcne : c ≠ c2 := fun he => (List.nodup_cons.mp hnd).1 (he ▸ hc2)
      exact no_cross si hedge (hsub c2 (List.mem_cons_of_mem _ hc2)) hcne hr1 hr2

/-- On every store satisfying the crawl store invariant (in particular: every
recorded edge points from an earlier-stored to a strictly later-stored key),
`build_tree` from any stored URL terminates with fuel `size - index`, leaves
the store untouched, and its pre-order URL list is exactly the set of URLs
reachable from the root along recorded edges, each exactly once. -/
theorem build_tree_main (s : Store) (si : StoreInv s) :
    ∀ fuel u, u ∈ akeys s.sitemap_data →
    (akeys s.sitemap_data).length - lidx (akeys s.sitemap_data) u < fuel →
    ∃ t, build_tree fuel s u = some (some t, s) ∧
      (∀ k, k ∈ treeUrls t ↔ Reaches s u k) ∧
      (∀ k, k ∈ treeUrls t →
        lidx (akeys s.sitemap_data) u ≤ lidx (akeys s.sitemap_data) k) ∧
      (treeUrls t).Nodup := by
  intro fuel
  induction fuel with
  | zero =>
    intro u hu hf
    have := lidx_lt_length hu
    omega
  | succ f ih =>
    intro u hu hf
    have hsome : ∃ nd, alookup s.sitemap_data u = some nd := by
      have h1 := (alookup_isSome_iff s.sitemap_data u).mpr hu
      cases h2 : alookup s.sitemap_data u with
      | none => rw [h2] at h1; simp at h1
      | some nd => exact ⟨nd, rfl⟩
    obtain ⟨nd, hnd⟩ := hsome
    have hndu : nd.url = u := si.entry_url (u, nd) (alookup_mem hnd)
    obtain ⟨ts, hbk, hmem2, hidx2, hnd2⟩ :=
      build_kids_main s si f u hu hf ih (pmGet s u) (pmGet_nodup si u) (fun c hc => hc)
    refine ⟨TreeNode.node nd.url nd.title nd.status nd.depth nd.parent ts, ?_, ?_, ?_, ?_⟩
    · simp [build_tree, hnd, hbk]
    · intro k
      simp only [treeUrls, hndu, List.mem_cons]
      constructor
      · rintro (h | h)
        · subst h
          exact Reaches.refl _
        · obtain ⟨c, hc, hr⟩ := (hmem2 k).mp h
          exact reaches_head hc hr
      · intro hr
        rcases reaches_cases hr with h | ⟨c, hc, hck⟩
        · exact Or.inl h
        · exact Or.inr ((hmem2 k).mpr ⟨c, hc, hck⟩)
    · intro k hk
      simp only [treeUrls, hndu, List.mem_cons] at hk
      rcases hk with h | h
      · subst h
        exact Nat.le_refl _
      · exact Nat.le_of_lt (hidx2 k h)
    · simp only [treeUrls, hndu]
      rw [List.nodup_cons]
      refine ⟨?_, hnd2⟩
      intro hmem
      have := hidx2 u hmem
      omega

/-- If the store is non-empty then the seed is a stored key (it is the first
stored key). -/
theorem seed_mem_of_ne (s : Store) (si : StoreInv s) (h : s.sitemap_data ≠ []) :
    seedUrl ∈ akeys s.sitemap_data := by
  rcases si.keys_head with h1 | h1
  · exact absurd h1 h
  · cases hk : akeys s.sitemap_data with
    | nil => rw [hk] at h1; simp at h1
    | cons a t =>
      rw [hk] at h1
      simp at h1
      simp [h1]

/-- In a crawl-produced store, every stored key is reachable from the seed
along recorded edges. -/
theorem complete_reach (s : Store) (si : StoreInv s) :
    ∀ k, k ∈ akeys s.sitemap_data → Reaches s seedUrl k := by
  have main : ∀ N k, k ∈ akeys s.sitemap_data →
      lidx (akeys s.sitemap_data) k < N → Reaches s seedUrl k := by
    intro N
    induction N with
    | zero =>
      intro k _ h
      omega
    | succ N ih =>
      intro k hk hkN
      by_cases hks : k = seedUrl
      · subst hks
        exact Reaches.refl _
      · have hsome : ∃ nd, alookup s.sitemap_data k = some nd := by
          have h1 := (alookup_isSome_iff s.sitemap_data k).mpr hk
          cases h2 : alookup s.sitemap_data k with
          | none => rw [h2] at h1; simp at h1
          | some nd => exact ⟨nd, rfl⟩
        obtain ⟨nd, hnd⟩ := hsome
        have hmem := alookup_mem hnd
        have hpar : ∃ p, nd.parent = some p := by
          cases hp : nd.parent with
          | none => exact absurd ((si.seed_parent _ hmem).mp hp) hks
          | some p => exact ⟨p, rfl⟩
        obtain ⟨p, hp⟩ := hpar
        obtain ⟨m, _, _, hedge⟩ := si.parent_rel _ hmem p hp
        have hpk : p ∈ akeys s.sitemap_data := (edge_keys si hedge).1
        have hplt : lidx (akeys s.sitemap_data) p < lidx (akeys s.sitemap_data) k :=
          edge_lt si hedge
        exact Reaches.tail (ih p hpk (by omega)) hedge
  intro k hk
  exact main ((akeys s.sitemap_data).length) k hk (lidx_lt_length hk)

/-! ### Remaining helper lemmas -/

theorem reaches_mem {s : Store} (si : StoreInv s) {a b : String}
    (ha : a ∈ akeys s.sitemap_data) (h : Reaches s a b) : b ∈ akeys s.sitemap_data := by
  induction h with
  | refl => exact ha
  | tail _ hedge _ => exact (edge_keys si hedge).2

theorem flat_urls_eq_keys (sd : List (String × Node)) (h : ∀ e ∈ sd, e.2.url = e.1) :
    (sd.map Prod.snd).map Node.url = akeys sd := by
  induction sd with
  | nil => rfl
  | cons e rest ih =>
    simp only [List.map_cons, akeys, List.map_map]
    simp only [akeys, List.map_map] at ih
    rw [h e (List.mem_cons_self _ _), ih (fun e2 he2 => h e2 (List.mem_cons_of_mem _ he2))]

theorem build_kids_single_none {bt : Store → String → Option (Option TreeNode × Store)}
    {s : Store} {c : String} (h : bt s c = none) : build_kids bt s [c] = none := by
  unfold build_kids
  rw [h]

theorem build_tree_succ_none (f : Nat) (s : Store) (u : String) (nd : Node)
    (hnd : alookup s.sitemap_data u = some nd)
    (hk : build_kids (build_tree f) s (pmGet s u) = none) :
    build_tree (f + 1) s u = none := by
  unfold build_tree
  simp only [hnd, hk]

theorem build_tree_succ_not_found (f : Nat) (s : Store) (u : String)
    (h : alookup s.sitemap_data u = none) : build_tree (f + 1) s u = some (none, s) := by
  unfold build_tree
  simp only [h]

/-! ### Concrete fixtures -/

/-- A minimal node record used in the counterexample stores. -/
def nodeOf (u : String) (dep : Nat) (par : Option String) : Node :=
  { url := u, title := "", status := 200, depth := dep, parent := par, child_urls := [] }

/-- A store whose `parent_map` records the 2-cycle a-b (each the parent of the
other). -/
def cycStore : Store :=
  { sitemap_data := [("a", nodeOf "a" 0 none), ("b", nodeOf "b" 1 (some "a"))],
    parent_map := [("a", ["b"]), ("b", ["a"])] }

/-- A store whose `parent_map` records "c" as a child of both "a" and "b". -/
def diamondStore : Store :=
  { sitemap_data := [("r", nodeOf "r" 0 none), ("a", nodeOf "a" 1 (some "r")),
                     ("b", nodeOf "b" 1 (some "r")), ("c", nodeOf "c" 2 (some "a"))],
    parent_map := [("r", ["a", "b"]), ("a", ["c"]), ("b", ["c"])] }

/-- A store already holding a node for one URL, with depth 0 and no parent. -/
def c3store : Store :=
  { sitemap_data :=
      [("https://www.ntc.net.np/a", nodeOf "https://www.ntc.net.np/a" 0 none)],
    parent_map := [] }

/-- An HTML response for the URL stored in `c3store`. -/
def c3resp : Response :=
  { url := "https://www.ntc.net.np/a", status := 200, contentType := "text/html",
    title := "", hrefs := [], urljoin := fun s0 => s0 }

/-- A successful fetch whose content type is not HTML. -/
def c4resp : Response :=
  { url := "https://www.ntc.net.np/doc.pdf", status := 200,
    contentType := "application/pdf", title := "", hrefs := [], urljoin := fun s0 => s0 }

/-- An HTML response for the seed, used to build a concrete reachable state. -/
def respEx : Response :=
  { url := seedUrl, status := 200, contentType := "text/html; charset=utf-8",
    title := "Nepal Telecom", hrefs := ["/np/home", "/np/file.pdf"],
    urljoin := fun h => String.append "https://www.ntc.net.np" h }

theorem respEx_join_ne : ∀ h, respEx.urljoin h ≠ "" := by
  intro h hc
  have hd : ("https://www.ntc.net.np".data ++ h.data) = ([] : List Char) :=
    congrArg String.data hc
  simp at hd

/-- The crawl state after the first step: the seed has been fetched. -/
def st1ex : CrawlState := stepResult initState [] [] respEx none 0

theorem step_st1ex : Step initState st1ex :=
  Step.fetch initState seedUrl none 0 [] [] respEx rfl (by decide) rfl respEx_join_ne

theorem reach_st1ex : Reachable st1ex := Reachable.step Reachable.init step_st1ex

/-! ### The claims -/

/-- C1, counterexample: the claim asserts that `build_tree` terminates on
every store, including ones whose `parent_map` contains a cycle, because the
walk tracks the set of URLs already placed.  The code has no such tracking:
on the concrete store whose `parent_map` records the 2-cycle a-b, the
recursion from "a" exhausts every fuel bound, i.e. the Python function
recurses forever. -/
theorem C1_counterexample : divergesAt cycStore "a" := by
  have h : ∀ fuel, build_tree fuel cycStore "a" = none ∧
      build_tree fuel cycStore "b" = none := by
    intro fuel
    induction fuel with
    | zero => exact ⟨rfl, rfl⟩
    | succ f ih =>
      constructor
      · exact build_tree_succ_none f cycStore "a" (nodeOf "a" 0 none) (by decide)
          (build_kids_single_none ih.2)
      · exact build_tree_succ_none f cycStore "b" (nodeOf "b" 1 (some "a")) (by decide)
          (build_kids_single_none ih.1)
  exact fun fuel => (h fuel).1

/-- C1, amended: `build_tree` has no already-placed guard and loops forever on
stores whose `parent_map` contains a cycle (see the counterexample); but on
every store the crawler itself produces, every recorded edge points from an
earlier-stored key to a strictly later-stored key, so the recursion from any
URL terminates within fuel `size + 1` (no fuel exhaustion). -/
theorem C1_amended_terminates (st : CrawlState) (h : Reachable st) (u : String) :
    build_tree (st.store.sitemap_data.length + 1) st.store u ≠ none := by
  have si := (reachable_inv h).store_inv
  by_cases hu : u ∈ akeys st.store.sitemap_data
  · have hlen : (akeys st.store.sitemap_data).length = st.store.sitemap_data.length := by
      simp [akeys]
    obtain ⟨t, hbt, _⟩ := build_tree_main st.store si (st.store.sitemap_data.length + 1) u hu
      (by have := lidx_lt_length hu; omega)
    rw [hbt]
    simp
  · have hnone : alookup st.store.sitemap_data u = none := (alookup_eq_none_iff _ _).mpr hu
    rw [build_tree_succ_not_found _ _ _ hnone]
    simp

/-- C1, witness: the amended theorem applied to a concrete reachable state. -/
theorem C1_witness :
    build_tree (st1ex.store.sitemap_data.length + 1) st1ex.store seedUrl ≠ none :=
  C1_amended_terminates st1ex reach_st1ex seedUrl

/-- C2, counterexample: the claim asserts that no URL appears at two different
positions of the tree even when a URL is recorded as a child under two
parents.  On the concrete store recording "c" as a child of both "a" and "b",
`build_tree` emits "c" twice (pre-order URL list r, a, c, b, c). -/
theorem C2_counterexample :
    treeUrlsOf 10 diamondStore "r" = some ["r", "a", "c", "b", "c"] ∧
    ((treeUrlsOf 10 diamondStore "r").getD []).count "c" = 2 := by
  constructor
  · decide
  · decide

/-- C2, amended: `build_tree` has no already-placed guard, so a URL recorded
under two parents is emitted twice (see the counterexample); but on every
store the crawler itself produces, each URL has at most one recorded parent
and edges point strictly forward, so the tree built from the seed contains
each stored URL at exactly one position (its pre-order URL list has no
duplicate and contains exactly the stored keys). -/
theorem C2_amended_unique (st : CrawlState) (h : Reachable st) :
    ∃ r, build_tree (st.store.sitemap_data.length + 1) st.store seedUrl =
        some (r, st.store) ∧
      (urlsOf r).Nodup ∧ (∀ u, u ∈ urlsOf r ↔ u ∈ akeys st.store.sitemap_data) := by
  have si := (reachable_inv h).store_inv
  by_cases hne : st.store.sitemap_data = []
  · have hnone : alookup st.store.sitemap_data seedUrl = none := by
      rw [hne]
      rfl
    refine ⟨none, ?_, by simp [urlsOf], ?_⟩
    · exact build_tree_succ_not_found _ _ _ hnone
    · intro u
      simp [urlsOf, hne, akeys]
  · have hseedmem := seed_mem_of_ne st.store si hne
    have hlen : (akeys st.store.sitemap_data).length = st.store.sitemap_data.length := by
      simp [akeys]
    obtain ⟨t, hbt, hmem, _, hnd⟩ :=
      build_tree_main st.store si (st.store.sitemap_data.length + 1) seedUrl hseedmem
        (by have := lidx_lt_length hseedmem; omega)
    refine ⟨some t, hbt, hnd, ?_⟩
    intro u
    rw [show urlsOf (some t) = treeUrls t from rfl, hmem u]
    constructor
    · exact reaches_mem si hseedmem
    · exact complete_reach st.store si u

/-- C2, witness: the amended theorem applied to a concrete reachable state. -/
theorem C2_witness :
    ∃ r, build_tree (st1ex.store.sitemap_data.length + 1) st1ex.store seedUrl =
        some (r, st1ex.store) ∧
      (urlsOf r).Nodup ∧ (∀ u, u ∈ urlsOf r ↔ u ∈ akeys st1ex.store.sitemap_data) :=
  C2_amended_unique st1ex reach_st1ex

/-- C3, counterexample: the claim asserts that when `parse` runs for a URL
that already has a stored node, the existing node wins and its parent and
depth are not overwritten.  Running `parse` on a store holding a node with
depth 0 and no parent, with meta depth 2 and a meta parent, overwrites both
fields. -/
theorem C3_counterexample :
    (alookup c3store.sitemap_data "https://www.ntc.net.np/a").map Node.depth = some 0 ∧
    (alookup c3store.sitemap_data "https://www.ntc.net.np/a").map Node.parent =
      some none ∧
    (alookup (parse c3store c3resp (some "https://www.ntc.net.np") 2).1.sitemap_data
      "https://www.ntc.net.np/a").map Node.depth = some 2 ∧
    (alookup (parse c3store c3resp (some "https://www.ntc.net.np") 2).1.sitemap_data
      "https://www.ntc.net.np/a").map Node.parent =
      some (some "https://www.ntc.net.np") := by
  refine ⟨?_, ?_, ?_, ?_⟩ <;> decide

/-- C3, amended: re-parsing a URL that already has a stored node keeps exactly
one entry per URL (the key list is unchanged, no second entry is created), but
the existing node does not win: the later parse replaces the stored node
wholesale, overwriting its parent and depth with the later fetch's values. -/
theorem C3_amended_last_wins (s : Store) (resp : Response) (par : Option String) (d : Nat)
    (hhtml : strContains (strLower resp.contentType) "text/html" = true)
    (hmem : resp.url ∈ akeys s.sitemap_data) :
    akeys (parse s resp par d).1.sitemap_data = akeys s.sitemap_data ∧
    alookup (parse s resp par d).1.sitemap_data resp.url = some (parse_node resp par d) := by
  have h1 : (parse s resp par d).1.sitemap_data =
      ainsert s.sitemap_data resp.url (parse_node resp par d) := by
    simp [parse, hhtml]
  rw [h1]
  exact ⟨akeys_ainsert_mem _ hmem, alookup_ainsert_self _ _ _⟩

/-- C3, witness: the amended theorem applied at a concrete store and
response. -/
theorem C3_witness :
    akeys (parse c3store c3resp (some "https://www.ntc.net.np") 2).1.sitemap_data =
      akeys c3store.sitemap_data ∧
    alookup (parse c3store c3resp (some "https://www.ntc.net.np") 2).1.sitemap_data
      c3resp.url = some (parse_node c3resp (some "https://www.ntc.net.np") 2) :=
  C3_amended_last_wins c3store c3resp (some "https://www.ntc.net.np") 2
    (by decide) (by decide)

/-- C4, counterexample: the claim asserts that a response whose content type
is not HTML still gets a `CrawlNode` recorded for its URL.  On a concrete
`application/pdf` response, `parse` records nothing at all: the store is
unchanged and the URL is not a key. -/
theorem C4_counterexample :
    parse (Store.mk [] []) c4resp (some seedUrl) 1 = (Store.mk [] [], []) ∧
    alookup (parse (Store.mk [] []) c4resp (some seedUrl) 1).1.sitemap_data
      "https://www.ntc.net.np/doc.pdf" = none := by
  constructor
  · decide
  · decide

/-- C4, amended: for every response whose content type does not contain
`text/html`, `parse` returns immediately: the store is unchanged, no node is
recorded for the URL, and no links are followed (the crawl simply continues
with other pages; no error is raised). -/
theorem C4_amended_skip (s : Store) (resp : Response) (par : Option String) (d : Nat)
    (h : strContains (strLower resp.contentType) "text/html" = false) :
    parse s resp par d = (s, []) ∧
    alookup (parse s resp par d).1.sitemap_data resp.url =
      alookup s.sitemap_data resp.url := by
  have hp := parse_not_html s resp par d h
  exact ⟨hp, by rw [hp]⟩

/-- C4, witness: the amended theorem applied at a concrete non-HTML
response. -/
theorem C4_witness :
    parse (Store.mk [] []) c4resp none 0 = (Store.mk [] [], []) ∧
    alookup (parse (Store.mk [] []) c4resp none 0).1.sitemap_data c4resp.url =
      alookup (Store.mk ([] : List (String × Node)) []).sitemap_data c4resp.url :=
  C4_amended_skip (Store.mk [] []) c4resp none 0 (by decide)

/-- C6: in every run of the crawl (modelled from the spec's frontier, §4.1,
since depth bookkeeping and the depth limit are enforced by the scrapy
framework, with `parse` from the source), every stored node's depth is at
most the configured `DEPTH_LIMIT` (3), the seed's node has depth 0, and every
non-seed node's depth equals its stored parent node's depth plus one. -/
theorem C6_depth_invariant (st : CrawlState) (h : Reachable st) (u : String) (n : Node)
    (hu : alookup st.store.sitemap_data u = some n) :
    n.depth ≤ DEPTH_LIMIT ∧
    (u = seedUrl → n.depth = 0) ∧
    (u ≠ seedUrl → ∃ p m, n.parent = some p ∧
      alookup st.store.sitemap_data p = some m ∧ n.depth = m.depth + 1) := by
  have si := (reachable_inv h).store_inv
  have hmem := alookup_mem hu
  refine ⟨si.entry_depth_le _ hmem, ?_, ?_⟩
  · intro hs
    exact si.seed_depth _ hmem hs
  · intro hns
    have hpar : ∃ p, n.parent = some p := by
      cases hp : n.parent with
      | none => exact absurd ((si.seed_parent _ hmem).mp hp) hns
      | some p => exact ⟨p, rfl⟩
    obtain ⟨p, hp⟩ := hpar
    obtain ⟨m, hm, hd, _⟩ := si.parent_rel _ hmem p hp
    exact ⟨p, m, hp, hm, hd⟩

/-- C6, witness: the depth invariant applied at the concrete state reached
after fetching the seed. -/
theorem C6_witness :
    ∃ n, alookup st1ex.store.sitemap_data seedUrl = some n ∧
      n.depth ≤ DEPTH_LIMIT ∧ n.depth = 0 := by
  refine ⟨parse_node respEx none 0, by decide, ?_, ?_⟩
  · exact (C6_depth_invariant st1ex reach_st1ex seedUrl (parse_node respEx none 0)
      (by decide)).1
  · exact (C6_depth_invariant st1ex reach_st1ex seedUrl (parse_node respEx none 0)
      (by decide)).2.1 rfl

/-- C7: in every run of the crawl (modelled from the spec's frontier, §4.1,
since the page-count limit is enforced by the scrapy framework), the number of
stored nodes never exceeds the configured `CLOSESPIDER_PAGECOUNT` (200):
pages are only stored when dispatched, and dispatching stops at the limit. -/
theorem C7_pagecount (st : CrawlState) (h : Reachable st) :
    st.store.sitemap_data.length ≤ CLOSESPIDER_PAGECOUNT := by
  have hI := reachable_inv h
  exact Nat.le_trans hI.count_le hI.disp_le

/-- C7, witness: the page-count bound applied at the concrete state reached
after fetching the seed. -/
theorem C7_witness : st1ex.store.sitemap_data.length ≤ CLOSESPIDER_PAGECOUNT :=
  C7_pagecount st1ex reach_st1ex

/-- C8: a discovered link whose URL ends (case-insensitively) in an excluded
resource extension is never yielded as a follow request by `parse`, never
becomes a key of the crawl graph store in any reachable state (the frontier
model is from the spec, §4.1), yet it still appears in the stored
`child_urls` list of any HTML page that discovered it. -/
theorem C8_excluded_extension (u : String)
    (hext : skip_extensions.any (fun ext => strEndsWith (strLower u) ext) = true) :
    (∀ s resp par d r, r ∈ (parse s resp par d).2 → r.url ≠ u) ∧
    (∀ st, Reachable st → alookup st.store.sitemap_data u = none) ∧
    (∀ s resp par d, strContains (strLower resp.contentType) "text/html" = true →
      u ∈ extract_child_urls resp →
      ∃ n, alookup (parse s resp par d).1.sitemap_data resp.url = some n ∧
        u ∈ n.child_urls) := by
  have hsf : should_follow u = false := by
    unfold should_follow
    rw [hext]
    rfl
  refine ⟨?_, ?_, ?_⟩
  · intro s resp par d r hr
    by_cases hh : strContains (strLower resp.contentType) "text/html" = true
    · have h2 : (parse s resp par d).2 = parse_requests resp := by
        simp [parse, hh]
      rw [h2] at hr
      obtain ⟨_, hfol, _⟩ := parse_requests_mem hr
      intro hc
      rw [hc, hsf] at hfol
      exact Bool.false_ne_true hfol
    · have hb : strContains (strLower resp.contentType) "text/html" = false := by
        revert hh
        cases strContains (strLower resp.contentType) "text/html" <;> simp
      rw [parse_not_html _ _ _ _ hb] at hr
      simp at hr
  · intro st h
    have hI := reachable_inv h
    cases hl : alookup st.store.sitemap_data u with
    | none => rfl
    | some n =>
      have hmem := alookup_mem hl
      have hft : should_follow u = true := hI.store_inv.entry_follow _ hmem
      rw [hsf] at hft
      exact absurd hft Bool.false_ne_true
  · intro s resp par d hh hu
    have h1 : (parse s resp par d).1.sitemap_data =
        ainsert s.sitemap_data resp.url (parse_node resp par d) := by
      simp [parse, hh]
    rw [h1]
    exact ⟨parse_node resp par d, alookup_ainsert_self _ _ _, hu⟩

/-- C8, witness: the excluded-extension theorem applied at a concrete `.PDF`
URL (with the never-a-key part instantiated implicitly by the conjunction). -/
theorem C8_witness :
    (∀ s resp par d r, r ∈ (parse s resp par d).2 →
      r.url ≠ "https://www.ntc.net.np/annual-report.PDF") ∧
    (∀ st, Reachable st →
      alookup st.store.sitemap_data "https://www.ntc.net.np/annual-report.PDF" = none) ∧
    (∀ s resp par d, strContains (strLower resp.contentType) "text/html" = true →
      "https://www.ntc.net.np/annual-report.PDF" ∈ extract_child_urls resp →
      ∃ n, alookup (parse s resp par d).1.sitemap_data resp.url = some n ∧
        "https://www.ntc.net.np/annual-report.PDF" ∈ n.child_urls) :=
  C8_excluded_extension "https://www.ntc.net.np/annual-report.PDF" (by decide)

/-- C9: for every crawl-produced store (the frontier is modelled from the
spec, §4.1), the `closed` outputs agree: every URL of the tree output is a URL
of the flat list, and every URL of the flat list is in the tree or is a
non-root node whose stored parent is absent (in fact the latter never happens:
the two URL sets coincide). -/
theorem C9_flat_tree (st : CrawlState) (h : Reachable st) :
    ∃ tr flat, closed (st.store.sitemap_data.length + 1) st.store = some (tr, flat) ∧
      (∀ u, u ∈ urlsOf tr → u ∈ flat.map Node.url) ∧
      (∀ u, u ∈ flat.map Node.url → u ∈ urlsOf tr ∨
        (u ≠ seedUrl ∧ ∃ nd, alookup st.store.sitemap_data u = some nd ∧
          ∀ p, nd.parent = some p → alookup st.store.sitemap_data p = none)) := by
  have si := (reachable_inv h).store_inv
  have hhead : start_urls.headD "" = seedUrl := rfl
  by_cases hne : st.store.sitemap_data = []
  · have hnone : alookup st.store.sitemap_data (start_urls.headD "") = none := by
      rw [hne]
      rfl
    refine ⟨none, st.store.sitemap_data.map Prod.snd, ?_, by simp [urlsOf], ?_⟩
    · unfold closed
      rw [build_tree_succ_not_found _ _ _ hnone]
    · rw [hne]
      simp
  · have hseedmem := seed_mem_of_ne st.store si hne
    have hlen : (akeys st.store.sitemap_data).length = st.store.sitemap_data.length := by
      simp [akeys]
    obtain ⟨t, hbt, hmem, _, _⟩ :=
      build_tree_main st.store si (st.store.sitemap_data.length + 1) seedUrl hseedmem
        (by have := lidx_lt_length hseedmem; omega)
    refine ⟨some t, st.store.sitemap_data.map Prod.snd, ?_, ?_, ?_⟩
    · unfold closed
      rw [hhead, hbt]
    · intro u hu
      rw [flat_urls_eq_keys _ si.entry_url]
      exact reaches_mem si hseedmem ((hmem u).mp hu)
    · intro u hu
      rw [flat_urls_eq_keys _ si.entry_url] at hu
      exact Or.inl ((hmem u).mpr (complete_reach st.store si u hu))

/-- C9, witness: the flat-versus-tree agreement applied at the concrete state
reached after fetching the seed. -/
theorem C9_witness :
    ∃ tr flat, closed (st1ex.store.sitemap_data.length + 1) st1ex.store =
        some (tr, flat) ∧
      (∀ u, u ∈ urlsOf tr → u ∈ flat.map Node.url) ∧
      (∀ u, u ∈ flat.map Node.url → u ∈ urlsOf tr ∨
        (u ≠ seedUrl ∧ ∃ nd, alookup st1ex.store.sitemap_data u = some nd ∧
          ∀ p, nd.parent = some p → alookup st1ex.store.sitemap_data p = none)) :=
  C9_flat_tree st1ex reach_st1ex

/-- C10: `build_tree` is read-only with respect to the crawl graph store.
The body works on `self.sitemap_data[url].copy()` and never assigns into the
store, which the store-threaded embedding makes explicit: any terminating
call returns the store unchanged, and the flat list `closed` writes after
tree building is exactly the store's node records (each still carrying its
`child_urls` field). -/
theorem C10_readonly (fuel : Nat) (s : Store) :
    (∀ u r, build_tree fuel s u = some r → r.2 = s) ∧
    (∀ out, closed fuel s = some out → out.2 = s.sitemap_data.map Prod.snd) := by
  constructor
  · intro u r hr
    exact build_tree_state fuel s u r hr
  · intro out hout
    unfold closed at hout
    split at hout
    · simp at hout
    · rename_i tr s1 hbt
      injection hout with h2
      subst h2
      have hs1 : s1 = s := build_tree_state _ _ _ _ hbt
      rw [hs1]

/-- C10, witness: a terminating concrete `build_tree` call returns the store
unchanged. -/
theorem C10_witness : (build_tree 10 diamondStore "r").map Prod.snd = some diamondStore := by
  cases hr : build_tree 10 diamondStore "r" with
  | none =>
    have hs : (build_tree 10 diamondStore "r").isSome = true := by decide
    rw [hr] at hs
    simp at hs
  | some r =>
    have h2 := (C10_readonly 10 diamondStore).1 "r" r hr
    simp [h2]

end NtcCrawler
